import Mathlib

/-!
Verification development for the one-pass LTL tableau solver of this
repository (src/src/solver.cpp).

The development shallowly embeds the solver's data model and the parts of
Solver::solution, Solver::_initialize (the closure comparator, the constant
short-circuit), Solver::_rollback_to_latest_choice,
Solver::_update_eventualities_satisfaction and Solver::model that the claims
under study are about.  Bitsets over closure indices [0, N) are embedded as
Finset ℕ; machine indices are ℕ; the frame stack is a List of frames, and the
chain back-pointer of a frame is passed around explicitly as the list of its
STEP ancestors (nearest first), which is faithful because a STEP ancestor's
formulas bitset never mutates while it still has descendants on the stack.

The embedding covers the configuration use_sat = false (no SAT bridge): the
claims under study are about the native tableau rules, and with use_sat =
false no frame ever has kind SAT (Solver::_should_use_sat_solver returns
false immediately).

Definitions are translated from the source.  The Frame copy construction, the
Eventuality record and the closure well-formedness facts supplied by the
generator/simplifier live in headers that are not part of src/; those few
definitions carry a "Modelled from the spec:" doc comment and the claims that
rest on them say so.
-/

namespace Leviathan

/-- LTL formula trees as they reach the core after simplification (spec §3;
the Formula::Type variants handled by Solver::_add_formula_for_position —
Iff/Then are eliminated by the simplifier and assert(false) on reaching the
core).  tru/fls are the constants, negation is ¬, tomorrow is X, always is G,
eventually is F, untl is the binary Until. -/
inductive Formula where
  | tru : Formula
  | fls : Formula
  | atom (name : String) : Formula
  | negation (f : Formula) : Formula
  | tomorrow (f : Formula) : Formula
  | always (f : Formula) : Formula
  | eventually (f : Formula) : Formula
  | conjunction (l r : Formula) : Formula
  | disjunction (l r : Formula) : Formula
  | untl (l r : Formula) : Formula
deriving DecidableEq, Repr

/-- Modelled from the spec: the numeric order of the Formula::Type enum tags
(the header defining the enum is not under src/); spec §3 lists the variants
in the order True, False, Atom, Not, X, G, F, ∧, ∨, U.  Only the relative
order matters: it is the final fallback of the closure comparator
(a->type() < b->type(), solver.cpp:144). -/
def Formula.typeTag : Formula → ℕ
  | .tru => 0
  | .fls => 1
  | .atom _ => 2
  | .negation _ => 3
  | .tomorrow _ => 4
  | .always _ => 5
  | .eventually _ => 6
  | .conjunction _ _ => 7
  | .disjunction _ _ => 8
  | .untl _ _ => 9

/-- Structural size, the termination measure of the comparator. -/
def Formula.size : Formula → ℕ
  | .tru => 1
  | .fls => 1
  | .atom _ => 1
  | .negation f => f.size + 1
  | .tomorrow f => f.size + 1
  | .always f => f.size + 1
  | .eventually f => f.size + 1
  | .conjunction l r => l.size + r.size + 1
  | .disjunction l r => l.size + r.size + 1
  | .untl l r => l.size + r.size + 1

/-- The structural comparator compareFunc used to sort the closure
(Solver::_initialize, solver.cpp:70-145), translated clause by clause with
the cases tried in the same order as the C++ if chain: atom/atom,
negation/negation, negation left, negation right, tomorrow/tomorrow,
tomorrow left, tomorrow right, always/always, eventually/eventually,
conjunction, disjunction, until, and the type() tag fallback.  Formula
equality (== on FormulaPtr) is structural equality. -/
def compareFunc : Formula → Formula → Bool
  | .atom s, .atom t => decide (s < t)
  | .negation a, .negation b => compareFunc a b
  | .negation a, b => if a = b then false else compareFunc a b
  | a, .negation b => if b = a then true else compareFunc a b
  | .tomorrow a, .tomorrow b => compareFunc a b
  | .tomorrow a, b => if a = b then false else compareFunc a b
  | a, .tomorrow b => if b = a then true else compareFunc a b
  | .always a, .always b => compareFunc a b
  | .eventually a, .eventually b => compareFunc a b
  | .conjunction a1 a2, .conjunction b1 b2 =>
      if a1 ≠ b1 then compareFunc a1 b1 else compareFunc a2 b2
  | .disjunction a1 a2, .disjunction b1 b2 =>
      if a1 ≠ b1 then compareFunc a1 b1 else compareFunc a2 b2
  | .untl a1 a2, .untl b1 b2 =>
      if a1 ≠ b1 then compareFunc a1 b1 else compareFunc a2 b2
  | a, b => decide (a.typeTag < b.typeTag)
termination_by a b => a.size + b.size
decreasing_by all_goals simp [Formula.size] <;> omega

/-- The strict-order proposition induced by the comparator; std::sort
produces a list pairwise related by it. -/
def cmpLT (a b : Formula) : Prop := compareFunc a b = true

instance : DecidableRel cmpLT := fun a b => by unfold cmpLT; infer_instance

/-- Shape discriminators used in proofs about the comparator. -/
def Formula.isNeg : Formula → Bool
  | .negation _ => true
  | _ => false

def Formula.isTom : Formula → Bool
  | .tomorrow _ => true
  | _ => false


/- ------------------------------------------------------------------ -/
/- Engine data model and rules (Solver::solution and helpers)          -/
/- ------------------------------------------------------------------ -/

/-- Discriminator for Until nodes (isa-Until in the source). -/
def Formula.isUntl : Formula → Bool
  | .untl _ _ => true
  | _ => false

/-- Whether a closure entry gets the negation bitset flag in
Solver::_add_formula_for_position (solver.cpp:345-355): a Negation whose
child is not an Until (a negated Until gets the not_until flag instead). -/
def negationFlag : Formula → Bool
  | .negation f => !f.isUntl
  | _ => false

/-- The position std::lower_bound returns for x in the sorted closure
(solver.cpp:213): the first index whose entry is not less than x; on a
sorted list this is the number of leading entries strictly below x. -/
def lowerBound (L : List Formula) (x : Formula) : ℕ :=
  (L.takeWhile (fun y => compareFunc y x)).length

/-- Solver::Result (solver.hpp contract, spec §6). -/
inductive Result where
  | SATISFIABLE
  | UNSATISFIABLE
  | UNDEFINED
deriving DecidableEq, Repr

/-- Solver::State: the engine lifecycle states used by solution() and
model() (UNINITIALIZED/INITIALIZED/RUNNING/PAUSED/DONE). -/
inductive SolverState where
  | UNINITIALIZED
  | INITIALIZED
  | RUNNING
  | PAUSED
  | DONE
deriving DecidableEq, Repr

/-- Frame kinds (spec §3): CHOICE frames are resumable β-choices, STEP
frames anchor the chain, SAT frames belong to the (disabled) SAT bridge. -/
inductive FrameType where
  | UNKNOWN
  | NORMAL
  | CHOICE
  | STEP
  | SAT
deriving DecidableEq, Repr

/-- Modelled from the spec: the Eventuality tri-state record (spec §3 and
§4.C; its definition lives in solver.hpp, which is not under src/):
UNREQUESTED → NOT_SATISFIED on first request → SATISFIED(k) once the
expected subformula holds at frame k; re-satisfaction updates k. -/
inductive Eventuality where
  | unrequested
  | notSatisfied
  | satisfied (id : ℕ)
deriving DecidableEq, Repr

def Eventuality.is_not_requested : Eventuality → Bool
  | .unrequested => true
  | _ => false

def Eventuality.is_satisfied : Eventuality → Bool
  | .satisfied _ => true
  | _ => false

def Eventuality.evId : Eventuality → ℕ
  | .satisfied k => k
  | _ => 0

def Eventuality.set_satisfied (e : Eventuality) (k : ℕ) : Eventuality :=
  match e with
  | _ => .satisfied k

/-- What the loop/REP detector reads from a STEP ancestor through the
chain pointer: its frame id and its formulas bitset.  A frame's chain is
passed around explicitly as a List ChainEntry, nearest ancestor first. -/
structure ChainEntry where
  id : ℕ
  formulas : Finset ℕ
deriving DecidableEq

/-- A search-stack frame (spec §3).  The chain back-pointer is not stored
here: it is passed to the detector explicitly.  chosen = none plays the role
of choosenFormula == FormulaID::max(). -/
structure Frame where
  id : ℕ
  formulas : Finset ℕ
  to_process : Finset ℕ
  eventualities : List Eventuality
  type : FrameType
  chosen : Option ℕ
deriving DecidableEq

/-- Modelled from the spec: the Frame copy construction used on every
β-rule/SAT push (the copy constructor lives in solver.hpp, not under src/).
Per spec §4.D the child inherits formulas, to_process and eventualities; the
new frame starts with a fresh kind and no chosen formula (otherwise a fresh
child would immediately be resumable, which contradicts §4.E's rollback
discipline). -/
def Frame.copy (f : Frame) : Frame :=
  { f with type := FrameType.UNKNOWN, chosen := none }

/-- The immutable per-solve tables built by Solver::_initialize: the kind
bitsets (one Finset ℕ per syntactic kind), lhs/rhs child indices, the
fw/bw eventuality lookup tables, and atom_set (index → atom name).  n is
_number_of_formulas. -/
structure Ctx where
  n : ℕ
  atom : Finset ℕ
  negation : Finset ℕ
  tomorrow : Finset ℕ
  always : Finset ℕ
  eventually : Finset ℕ
  conjunction : Finset ℕ
  disjunction : Finset ℕ
  untl : Finset ℕ
  not_until : Finset ℕ
  lhs : ℕ → ℕ
  rhs : ℕ → ℕ
  fw_ev : ℕ → ℕ
  bw_ev : List ℕ
  atom_set : ℕ → Option String

/-- Bitset find_first over width n: the lowest set index, if any. -/
def findFirst (n : ℕ) (s : Finset ℕ) : Option ℕ :=
  (List.range n).find? (fun i => decide (i ∈ s))

/-- The APPLY_RULE macro body (solver.cpp:463-492): pick the first bit of
formulas ∧ kind ∧ to_process; clear it from to_process, record it as the
frame's choosenFormula and mark the frame CHOICE.  Returns the picked index
and the updated frame, or none when no bit is set. -/
def applyBetaRule (n : ℕ) (kindSet : Finset ℕ) (frame : Frame) : Option (ℕ × Frame) :=
  match findFirst n (frame.formulas ∩ kindSet ∩ frame.to_process) with
  | none => none
  | some i => some (i, { frame with to_process := frame.to_process.erase i,
                                    chosen := some i, type := FrameType.CHOICE })

/-- The slot request idiom at solver.cpp:548-549 (and 562-563): if the slot
is UNREQUESTED, transition it to NOT_SATISFIED. -/
def requestEv (evs : List Eventuality) (slot : ℕ) : List Eventuality :=
  match evs.get? slot with
  | none => evs
  | some e => if e.is_not_requested then evs.set slot Eventuality.notSatisfied else evs

/-- Faithful embedding of the not-until dual-slot update at
solver.cpp:574-579.  In the source, ev is a C++ reference bound to slot L;
the statement ev = frame.eventualities[R] does not rebind it — it
copy-assigns slot R's record INTO slot L — and the second is_not_requested
check then reads and writes slot L again.  Slot R is never written. -/
def notUntilEvUpdate (evs : List Eventuality) (slotL slotR : ℕ) : List Eventuality :=
  let evs1 := requestEv evs slotL
  let evs2 := match evs1.get? slotR with
    | none => evs1
    | some eR => evs1.set slotL eR
  requestEv evs2 slotL

/-- The disjunction β-rule branch of Solver::solution (solver.cpp:536-544):
fire the rule, then push a child committing the first alternative lhs[i].
Returns (updated parent, pushed child). -/
def pushDisjunction (ctx : Ctx) (frame : Frame) : Option (Frame × Frame) :=
  match applyBetaRule ctx.n ctx.disjunction frame with
  | none => none
  | some (i, par) =>
      some (par, { par.copy with formulas := insert (ctx.lhs i) par.formulas })

/-- The eventually β-rule branch (solver.cpp:546-557): request the slot
fw_ev[lhs[i]] on the parent, then push a child committing lhs[i] now. -/
def pushEventually (ctx : Ctx) (frame : Frame) : Option (Frame × Frame) :=
  match applyBetaRule ctx.n ctx.eventually frame with
  | none => none
  | some (i, par) =>
      let par2 := { par with eventualities := requestEv par.eventualities (ctx.fw_ev (ctx.lhs i)) }
      some (par2, { par2.copy with formulas := insert (ctx.lhs i) par2.formulas })

/-- The until β-rule branch (solver.cpp:559-570): request the slot
fw_ev[rhs[i]] on the parent, then push a child committing rhs[i] now. -/
def pushUntl (ctx : Ctx) (frame : Frame) : Option (Frame × Frame) :=
  match applyBetaRule ctx.n ctx.untl frame with
  | none => none
  | some (i, par) =>
      let par2 := { par with eventualities := requestEv par.eventualities (ctx.fw_ev (ctx.rhs i)) }
      some (par2, { par2.copy with formulas := insert (ctx.rhs i) par2.formulas })

/-- The not-until β-rule branch (solver.cpp:572-587): run the (buggy)
dual-slot update on the parent, then push a child committing both lhs[i]
and rhs[i]. -/
def pushNotUntil (ctx : Ctx) (frame : Frame) : Option (Frame × Frame) :=
  match applyBetaRule ctx.n ctx.not_until frame with
  | none => none
  | some (i, par) =>
      let evs2 := notUntilEvUpdate par.eventualities (ctx.fw_ev (ctx.lhs i)) (ctx.fw_ev (ctx.rhs i))
      let par2 := { par with eventualities := evs2 }
      let child := { par2.copy with formulas := insert (ctx.rhs i) (insert (ctx.lhs i) par2.formulas) }
      some (par2, child)

/-- The second-alternative frame built when rollback resumes a CHOICE frame
whose choosenFormula is i (solver.cpp:824-866): disjunction adds rhs[i];
eventually adds the Tomorrow skin at i+1; until adds lhs[i] plus the X-skin
at i+1 or i+2 (depending on tomorrow[i+1]); not-until adds rhs[i] plus that
X-skin. -/
def rollbackChild (ctx : Ctx) (top : Frame) (i : ℕ) : Frame :=
  let skin := if i + 1 ∈ ctx.tomorrow then i + 1 else i + 2
  let fs :=
    if i ∈ ctx.disjunction then insert (ctx.rhs i) top.formulas
    else if i ∈ ctx.eventually then insert (i + 1) top.formulas
    else if i ∈ ctx.untl then insert skin (insert (ctx.lhs i) top.formulas)
    else if i ∈ ctx.not_until then insert skin (insert (ctx.rhs i) top.formulas)
    else top.formulas
  { top.copy with formulas := fs }

/-- Solver::_rollback_to_latest_choice (solver.cpp:818-923) for the
use_sat = false configuration, in which no frame ever has kind SAT: pop
frames until a CHOICE frame with an unused alternative is found; resume it
by pushing its second-alternative child and clearing its choosenFormula. -/
def rollback_to_latest_choice (ctx : Ctx) : List Frame → List Frame
  | [] => []
  | top :: rest =>
      if top.type = FrameType.CHOICE ∧ top.chosen ≠ none then
        match top.chosen with
        | some i => rollbackChild ctx top i :: { top with chosen := none } :: rest
        | none => rollback_to_latest_choice ctx rest
      else rollback_to_latest_choice ctx rest

/-- The eventuality check of the LOOP rule (solver.cpp:717-730): every slot
is either not requested, or satisfied with satisfaction id ≥ the ancestor's
frame id. -/
def allSatisfied (evs : List Eventuality) (aid : ℕ) : Bool :=
  evs.all (fun e => e.is_not_requested || (e.is_satisfied && decide (aid ≤ e.evId)))

/-- The chain walk of the loop/REP detector (solver.cpp:709-750).  Returns
inl A.id when the first ancestor A with formulas ⊇ fs has all eventualities
satisfied since A.id (the LOOP rule fires), otherwise inr the number of
ancestors whose formulas equal fs exactly (the source keeps only the first
two such ancestors, repFrame1/repFrame2, but the sole observation made of
them is whether both exist, i.e. whether this count is at least 2). -/
def chainWalk (evs : List Eventuality) (fs : Finset ℕ) : List ChainEntry → ℕ ⊕ ℕ
  | [] => Sum.inr 0
  | A :: rest =>
      if fs ⊆ A.formulas then
        if allSatisfied evs A.id then Sum.inl A.id
        else match chainWalk evs fs rest with
          | Sum.inl a => Sum.inl a
          | Sum.inr r => Sum.inr (if fs = A.formulas then r + 1 else r)
      else chainWalk evs fs rest

/-- Solver::_update_eventualities_satisfaction (solver.cpp:806-816): slot i
becomes satisfied at the current frame id whenever the formula
bw_ev[i] is asserted; it runs before every lookback. -/
def updateEventualities (ctx : Ctx) (frame : Frame) : Frame :=
  { frame with eventualities := frame.eventualities.mapIdx (fun i ev =>
      if ctx.bw_ev.getD i 0 ∈ frame.formulas then ev.set_satisfied frame.id else ev) }

/-- The STEP rule child (solver.cpp:768-796): a frame at id+1 whose
formulas are lhs[j] for every asserted Tomorrow j (the explicit index loop
over [0, n)).  The fresh to_process and inherited eventualities follow the
Frame constructor in solver.hpp, which is not under src/ and is modelled
from spec §4.E/§4.D; the parent becomes the new chain anchor. -/
def stepChild (ctx : Ctx) (frame : Frame) : Frame :=
  { id := frame.id + 1
    formulas := ((frame.formulas ∩ ctx.tomorrow).filter (· < ctx.n)).image ctx.lhs
    to_process := Finset.range ctx.n
    eventualities := frame.eventualities
    type := FrameType.UNKNOWN
    chosen := none }

/-- What one execution of the after-rules part of Solver::solution does to
the solver: conclude r s l stands for the early return that sets _result :=
r, _state := s and _loop_state := l; rollback stands for the call to
_rollback_to_latest_choice; step child stands for pushing the STEP child and
marking the current frame STEP. -/
inductive Outcome where
  | conclude (result : Result) (state : SolverState) (loopState : ℕ)
  | rollback
  | step (child : Frame)
deriving DecidableEq

/-- The part of Solver::solution that runs once the inner rule loop has
settled (solver.cpp:694-796): the OCCASIONAL LOOKBACK coin gates the chain
walk (coin = true means the lookback is performed); the LOOP rule returns
SATISFIABLE/PAUSED with the ancestor id as loop state; the REP rule (two
ancestors with identical formulas) rolls back; then the depth bound
frame.id ≥ maximum_depth rolls back; otherwise the STEP rule fires. -/
def afterRules (ctx : Ctx) (maxd : ℕ) (coin : Bool) (frame : Frame)
    (chain : List ChainEntry) : Outcome :=
  let walk := if coin then chainWalk frame.eventualities frame.formulas chain else Sum.inr 0
  match walk with
  | Sum.inl a => Outcome.conclude Result.SATISFIABLE SolverState.PAUSED a
  | Sum.inr reps =>
      if 2 ≤ reps then Outcome.rollback
      else if maxd ≤ frame.id then Outcome.rollback
      else Outcome.step (stepChild ctx frame)

/-- The epilogue of Solver::solution when the stack empties
(solver.cpp:799-803): an UNDEFINED result becomes UNSATISFIABLE. -/
def finishResult (r : Result) : Result :=
  if r = Result.UNDEFINED then Result.UNSATISFIABLE else r

/-- The OCCASIONAL LOOKBACK gate (solver.cpp:703): the lookback is skipped
exactly when the uniform draw from {0..100} exceeds backtrack_probability,
so it is performed iff draw ≤ p. -/
def occasional_lookback (draw p : ℕ) : Bool :=
  !(decide (p < draw))

/-- The constant-closure short circuit of Solver::_initialize
(solver.cpp:54-68): when the simplified formula's subformula list is the
single formula True (resp. False), the solver is put directly into DONE
with result SATISFIABLE (resp. UNSATISFIABLE) and no structures are built.
Returns none when the closure is not a single constant. -/
def initShortCircuit : List Formula → Option (Result × SolverState)
  | [f] =>
      if f = Formula.tru then some (Result.SATISFIABLE, SolverState.DONE)
      else if f = Formula.fls then some (Result.UNSATISFIABLE, SolverState.DONE)
      else none
  | _ => none

/-- The entry check of Solver::solution (solver.cpp:496-501): in state
RUNNING or DONE the stored result is returned immediately, with no search;
otherwise (none) the engine proceeds. -/
def solutionEntry (st : SolverState) (res : Result) : Option Result :=
  if st = SolverState.RUNNING ∨ st = SolverState.DONE then some res else none

/-- A model literal: an atom name with a polarity. -/
structure Literal where
  name : String
  positive : Bool
deriving DecidableEq, Repr

/-- The extracted lasso model: states plus the index where the periodic
part starts. -/
structure LTLModel where
  states : List (List Literal)
  loop_state : ℕ
deriving DecidableEq, Repr

/-- The per-frame state extraction of Solver::model (solver.cpp:949-959):
positive literals for asserted atoms, negative literals for asserted
negations of atoms. -/
def stateOf (ctx : Ctx) (frame : Frame) : List Literal :=
  (List.range ctx.n).filterMap (fun j =>
    if j ∈ frame.formulas then
      match ctx.atom_set j with
      | some s => some ⟨s, true⟩
      | none =>
          if j ∈ ctx.negation then
            match ctx.atom_set (ctx.lhs j) with
            | some s => some ⟨s, false⟩
            | none => none
          else none
    else none)

/-- Solver::model (solver.cpp:926-987): none unless the solver is PAUSED
with a result other than UNSATISFIABLE/UNDEFINED; the special case for the
closure {True} returns the single ⊤ state; otherwise the stack is walked
bottom to top skipping CHOICE and SAT frames and the last state is
discarded. -/
def modelFn (ctx : Ctx) (st : SolverState) (res : Result) (subformulas : List Formula)
    (stack : List Frame) (loop_state : ℕ) : Option LTLModel :=
  if st ≠ SolverState.PAUSED then none
  else if res = Result.UNSATISFIABLE ∨ res = Result.UNDEFINED then none
  else if subformulas = [Formula.tru] then some ⟨[[⟨"\u22a4", true⟩]], 0⟩
  else
    let sts := (stack.filter (fun f =>
      f.type ≠ FrameType.CHOICE ∧ f.type ≠ FrameType.SAT)).map (stateOf ctx)
    some ⟨sts.dropLast, loop_state⟩


/- ------------------------------------------------------------------ -/
/- Concrete instances used by witnesses and counterexamples            -/
/- ------------------------------------------------------------------ -/

/-- The atom p, used by concrete witnesses. -/
def pAtom : Formula := Formula.atom ("p")

/-- Modelled from the spec: the closure tables for the input G p
(closure [p, G p, X G p] in comparator order, indices 0/1/2), satisfying the
X-adjacency invariant always[1] ⇒ tomorrow[2] ∧ lhs[2] = 1 of spec §3. -/
def ctxG : Ctx :=
  { n := 3
    atom := {0}
    negation := ∅
    tomorrow := {2}
    always := {1}
    eventually := ∅
    conjunction := ∅
    disjunction := ∅
    untl := ∅
    not_until := ∅
    lhs := fun i => if i = 1 then 0 else if i = 2 then 1 else 0
    rhs := fun _ => 0
    fw_ev := fun _ => 0
    bw_ev := []
    atom_set := fun i => if i = 0 then some ("p") else none }

/-- The frame the detector sees at time 1 on the G p run: all three
closure formulas asserted, the inner loop settled. -/
def FG : Frame :=
  { id := 1, formulas := {0, 1, 2}, to_process := ∅, eventualities := [],
    type := FrameType.UNKNOWN, chosen := none }

/-- Its chain: the STEP ancestor at time 0 with the same formulas. -/
def chG : List ChainEntry := [{ id := 0, formulas := {0, 1, 2} }]

/-- Modelled from the spec: a minimal closure fragment with a not-until
entry at index 2 whose negated children sit at 0 and 1; both children are
eventualities with slots 0 and 1 (fw_ev is the identity, bw_ev = [0, 1]). -/
def ctxN : Ctx :=
  { n := 3
    atom := ∅
    negation := {0, 1}
    tomorrow := ∅
    always := ∅
    eventually := ∅
    conjunction := ∅
    disjunction := ∅
    untl := ∅
    not_until := {2}
    lhs := fun i => if i = 2 then 0 else 0
    rhs := fun i => if i = 2 then 1 else 0
    fw_ev := fun i => i
    bw_ev := [0, 1]
    atom_set := fun _ => none }

/-- A frame asserting only the not-until entry, both slots UNREQUESTED. -/
def FN : Frame :=
  { id := 0, formulas := {2}, to_process := {0, 1, 2},
    eventualities := [Eventuality.unrequested, Eventuality.unrequested],
    type := FrameType.UNKNOWN, chosen := none }

/-- A frame with a pending (not satisfied) eventuality, so the LOOP rule
cannot fire on it. -/
def FRep : Frame :=
  { id := 2, formulas := {0}, to_process := ∅,
    eventualities := [Eventuality.notSatisfied],
    type := FrameType.UNKNOWN, chosen := none }

/-- A chain with two STEP ancestors carrying exactly FRep's formulas. -/
def chRep : List ChainEntry := [{ id := 1, formulas := {0} }, { id := 0, formulas := {0} }]

/-- A minimal closure fragment with a disjunction at index 0 whose
children sit at 1 and 2. -/
def ctxD : Ctx :=
  { n := 3, atom := {1, 2}, negation := ∅, tomorrow := ∅, always := ∅, eventually := ∅,
    conjunction := ∅, disjunction := {0}, untl := ∅, not_until := ∅,
    lhs := fun i => if i = 0 then 1 else 0, rhs := fun i => if i = 0 then 2 else 0,
    fw_ev := fun _ => 0, bw_ev := [], atom_set := fun _ => none }

/-- A frame asserting the disjunction, with everything still to process. -/
def FD : Frame :=
  { id := 0, formulas := {0}, to_process := {0, 1, 2}, eventualities := [],
    type := FrameType.UNKNOWN, chosen := none }

/-- The parent frame after the disjunction β-rule fires on FD. -/
def parD : Frame := { FD with to_process := FD.to_process.erase 0, chosen := some 0, type := FrameType.CHOICE }

/-- The child frame pushed by the disjunction β-rule on FD. -/
def childD : Frame := { parD.copy with formulas := insert (ctxD.lhs 0) parD.formulas }


/- ------------------------------------------------------------------ -/
/- Order-theoretic facts about the closure comparator                  -/
/- ------------------------------------------------------------------ -/

theorem cmp_neg_neg (a b : Formula) :
    compareFunc (.negation a) (.negation b) = compareFunc a b := by
  simp [compareFunc]

theorem cmp_neg_left (a b : Formula) (hb : b.isNeg = false) :
    compareFunc (.negation a) b = if a = b then false else compareFunc a b := by
  cases b <;> simp [compareFunc, Formula.isNeg] at hb ⊢

theorem cmp_neg_right (a b : Formula) (ha : a.isNeg = false) :
    compareFunc a (.negation b) = if b = a then true else compareFunc a b := by
  cases a <;> simp [compareFunc, Formula.isNeg] at ha ⊢

theorem cmp_tom_tom (a b : Formula) :
    compareFunc (.tomorrow a) (.tomorrow b) = compareFunc a b := by
  simp [compareFunc]

theorem cmp_tom_left (a b : Formula) (hb1 : b.isNeg = false) (hb2 : b.isTom = false) :
    compareFunc (.tomorrow a) b = if a = b then false else compareFunc a b := by
  cases b <;> simp [compareFunc, Formula.isNeg, Formula.isTom] at hb1 hb2 ⊢

theorem cmp_tom_right (a b : Formula) (ha1 : a.isNeg = false) (ha2 : a.isTom = false) :
    compareFunc a (.tomorrow b) = if b = a then true else compareFunc a b := by
  cases a <;> simp [compareFunc, Formula.isNeg, Formula.isTom] at ha1 ha2 ⊢

theorem Formula.neg_shape (a : Formula) : (∃ x, a = Formula.negation x) ∨ a.isNeg = false := by
  cases a <;> simp [Formula.isNeg]

theorem Formula.tom_shape (a : Formula) : (∃ x, a = Formula.tomorrow x) ∨ a.isTom = false := by
  cases a <;> simp [Formula.isTom]

theorem cmp_irrefl (a : Formula) : compareFunc a a = false := by
  induction a with
  | tru => simp [compareFunc]
  | fls => simp [compareFunc]
  | atom s => simp [compareFunc]
  | negation f ih => rwa [cmp_neg_neg]
  | tomorrow f ih => rwa [cmp_tom_tom]
  | always f ih => simpa [compareFunc] using ih
  | eventually f ih => simpa [compareFunc] using ih
  | conjunction l r ihl ihr => simpa [compareFunc] using ihr
  | disjunction l r ihl ihr => simpa [compareFunc] using ihr
  | untl l r ihl ihr => simpa [compareFunc] using ihr

set_option maxHeartbeats 1000000 in
theorem cmp_asymm_aux : ∀ n : ℕ, ∀ a b : Formula, a.size + b.size ≤ n →
    compareFunc a b = true → compareFunc b a = true → False := by
  intro n
  induction n with
  | zero => intro a b hsz _ _; cases a <;> simp [Formula.size] at hsz <;> omega
  | succ n ih =>
    intro a b hsz h1 h2
    rcases Formula.neg_shape a with ⟨a1, rfl⟩ | han
    · rcases Formula.neg_shape b with ⟨b1, rfl⟩ | hbn
      · rw [cmp_neg_neg] at h1 h2
        exact ih a1 b1 (by simp [Formula.size] at hsz ⊢ <;> omega) h1 h2
      · rw [cmp_neg_left a1 b hbn] at h1
        rw [cmp_neg_right b a1 hbn] at h2
        split_ifs at h1 h2 with hc
        exact ih a1 b (by simp [Formula.size] at hsz ⊢ <;> omega) h1 h2
    · rcases Formula.neg_shape b with ⟨b1, rfl⟩ | hbn
      · rw [cmp_neg_right a b1 han] at h1
        rw [cmp_neg_left b1 a han] at h2
        split_ifs at h1 h2 with hc
        exact ih b1 a (by simp [Formula.size] at hsz ⊢ <;> omega) h2 h1
      · rcases Formula.tom_shape a with ⟨a1, rfl⟩ | hat
        · rcases Formula.tom_shape b with ⟨b1, rfl⟩ | hbt
          · rw [cmp_tom_tom] at h1 h2
            exact ih a1 b1 (by simp [Formula.size] at hsz ⊢ <;> omega) h1 h2
          · rw [cmp_tom_left a1 b hbn hbt] at h1
            rw [cmp_tom_right b a1 hbn hbt] at h2
            split_ifs at h1 h2 with hc
            exact ih a1 b (by simp [Formula.size] at hsz ⊢ <;> omega) h1 h2
        · rcases Formula.tom_shape b with ⟨b1, rfl⟩ | hbt
          · rw [cmp_tom_right a b1 han hat] at h1
            rw [cmp_tom_left b1 a han hat] at h2
            split_ifs at h1 h2 with hc
            exact ih b1 a (by simp [Formula.size] at hsz ⊢ <;> omega) h2 h1
          · cases a <;> cases b <;>
              first
                | (simp only [Formula.isNeg] at han; exact Bool.noConfusion han)
                | (simp only [Formula.isNeg] at hbn; exact Bool.noConfusion hbn)
                | (simp only [Formula.isTom] at hat; exact Bool.noConfusion hat)
                | (simp only [Formula.isTom] at hbt; exact Bool.noConfusion hbt)
                | (simp only [compareFunc, decide_eq_true_eq] at h1 h2;
                   exact absurd h1 (asymm h2))
                | (simp only [compareFunc] at h1 h2;
                   exact ih _ _ (by simp [Formula.size] at hsz ⊢ <;> omega) h1 h2)
                | (simp only [compareFunc] at h1 h2;
                   split_ifs at h1 h2 with hc hd <;>
                     first
                       | exact ih _ _ (by simp [Formula.size] at hsz ⊢ <;> omega) h1 h2
                       | simp_all)
                | (simp only [compareFunc.eq_def, Formula.typeTag, decide_eq_true_eq] at h1 h2;
                   omega)

theorem cmp_asymm (a b : Formula) (h1 : compareFunc a b = true)
    (h2 : compareFunc b a = true) : False :=
  cmp_asymm_aux (a.size + b.size) a b le_rfl h1 h2

set_option maxHeartbeats 1000000 in
theorem cmp_total_aux : ∀ n : ℕ, ∀ a b : Formula, a.size + b.size ≤ n → a ≠ b →
    compareFunc a b = true ∨ compareFunc b a = true := by
  intro n
  induction n with
  | zero => intro a b hsz _; cases a <;> simp [Formula.size] at hsz <;> omega
  | succ n ih =>
    intro a b hsz hne
    rcases Formula.neg_shape a with ⟨a1, rfl⟩ | han
    · rcases Formula.neg_shape b with ⟨b1, rfl⟩ | hbn
      · rw [cmp_neg_neg, cmp_neg_neg]
        refine ih a1 b1 (by simp [Formula.size] at hsz ⊢ <;> omega) ?_
        intro h
        exact hne (by rw [h])
      · rw [cmp_neg_left a1 b hbn, cmp_neg_right b a1 hbn]
        by_cases hc : a1 = b
        · right; rw [if_pos hc]
        · rw [if_neg hc, if_neg hc]
          exact ih a1 b (by simp [Formula.size] at hsz ⊢ <;> omega) hc
    · rcases Formula.neg_shape b with ⟨b1, rfl⟩ | hbn
      · rw [cmp_neg_right a b1 han, cmp_neg_left b1 a han]
        by_cases hc : b1 = a
        · left; rw [if_pos hc]
        · rw [if_neg hc, if_neg hc]
          exact Or.symm (ih b1 a (by simp [Formula.size] at hsz ⊢ <;> omega) hc)
      · rcases Formula.tom_shape a with ⟨a1, rfl⟩ | hat
        · rcases Formula.tom_shape b with ⟨b1, rfl⟩ | hbt
          · rw [cmp_tom_tom, cmp_tom_tom]
            refine ih a1 b1 (by simp [Formula.size] at hsz ⊢ <;> omega) ?_
            intro h
            exact hne (by rw [h])
          · rw [cmp_tom_left a1 b hbn hbt, cmp_tom_right b a1 hbn hbt]
            by_cases hc : a1 = b
            · right; rw [if_pos hc]
            · rw [if_neg hc, if_neg hc]
              exact ih a1 b (by simp [Formula.size] at hsz ⊢ <;> omega) hc
        · rcases Formula.tom_shape b with ⟨b1, rfl⟩ | hbt
          · rw [cmp_tom_right a b1 han hat, cmp_tom_left b1 a han hat]
            by_cases hc : b1 = a
            · left; rw [if_pos hc]
            · rw [if_neg hc, if_neg hc]
              exact Or.symm (ih b1 a (by simp [Formula.size] at hsz ⊢ <;> omega) hc)
          · cases a <;> cases b <;>
              first
                | (simp only [Formula.isNeg] at han; exact Bool.noConfusion han)
                | (simp only [Formula.isNeg] at hbn; exact Bool.noConfusion hbn)
                | (simp only [Formula.isTom] at hat; exact Bool.noConfusion hat)
                | (simp only [Formula.isTom] at hbt; exact Bool.noConfusion hbt)
                | (exact absurd rfl hne)
                | (simp only [compareFunc, decide_eq_true_eq];
                   simp only [ne_eq, Formula.atom.injEq] at hne;
                   exact Ne.lt_or_lt hne)
                | (simp only [compareFunc];
                   simp only [ne_eq, Formula.always.injEq] at hne;
                   exact ih _ _ (by simp [Formula.size] at hsz ⊢ <;> omega) hne)
                | (simp only [compareFunc];
                   simp only [ne_eq, Formula.eventually.injEq] at hne;
                   exact ih _ _ (by simp [Formula.size] at hsz ⊢ <;> omega) hne)
                | (rename_i l1 r1 l2 r2;
                   simp only [compareFunc];
                   by_cases hll : l1 = l2;
                   · subst hll;
                     rw [if_neg (not_not_intro rfl), if_neg (not_not_intro rfl)];
                     refine ih r1 r2 (by simp [Formula.size] at hsz ⊢ <;> omega) ?_;
                     intro h;
                     exact hne (by rw [h]);
                   · rw [if_pos hll, if_pos (Ne.symm hll)];
                     exact ih l1 l2 (by simp [Formula.size] at hsz ⊢ <;> omega) hll)
                | (simp [compareFunc.eq_def, Formula.typeTag])

theorem cmp_total (a b : Formula) (hne : a ≠ b) :
    compareFunc a b = true ∨ compareFunc b a = true :=
  cmp_total_aux (a.size + b.size) a b le_rfl hne


theorem cmp_atom_atom (s t : String) :
    compareFunc (.atom s) (.atom t) = decide (s < t) := by
  simp [compareFunc]

theorem cmp_alw_alw (a b : Formula) :
    compareFunc (.always a) (.always b) = compareFunc a b := by
  simp [compareFunc]

theorem cmp_ev_ev (a b : Formula) :
    compareFunc (.eventually a) (.eventually b) = compareFunc a b := by
  simp [compareFunc]

theorem cmp_conj_conj (a1 a2 b1 b2 : Formula) :
    compareFunc (.conjunction a1 a2) (.conjunction b1 b2) =
      if a1 ≠ b1 then compareFunc a1 b1 else compareFunc a2 b2 := by
  simp [compareFunc]

theorem cmp_disj_disj (a1 a2 b1 b2 : Formula) :
    compareFunc (.disjunction a1 a2) (.disjunction b1 b2) =
      if a1 ≠ b1 then compareFunc a1 b1 else compareFunc a2 b2 := by
  simp [compareFunc]

theorem cmp_untl_untl (a1 a2 b1 b2 : Formula) :
    compareFunc (.untl a1 a2) (.untl b1 b2) =
      if a1 ≠ b1 then compareFunc a1 b1 else compareFunc a2 b2 := by
  simp [compareFunc]

theorem cmp_cross (a b : Formula) (han : a.isNeg = false) (hbn : b.isNeg = false)
    (hat : a.isTom = false) (hbt : b.isTom = false) (hne : a.typeTag ≠ b.typeTag) :
    compareFunc a b = decide (a.typeTag < b.typeTag) := by
  cases a <;> cases b <;>
    first
      | (simp [Formula.typeTag] at hne; done)
      | (simp only [Formula.isNeg] at han; exact Bool.noConfusion han)
      | (simp only [Formula.isNeg] at hbn; exact Bool.noConfusion hbn)
      | (simp only [Formula.isTom] at hat; exact Bool.noConfusion hat)
      | (simp only [Formula.isTom] at hbt; exact Bool.noConfusion hbt)
      | (simp [compareFunc.eq_def, Formula.typeTag])

theorem tag_tru (b : Formula) (h : b.typeTag = 0) : b = .tru := by
  cases b <;> simp [Formula.typeTag] at h ⊢

theorem tag_fls (b : Formula) (h : b.typeTag = 1) : b = .fls := by
  cases b <;> simp [Formula.typeTag] at h ⊢

theorem tag_atom (b : Formula) (h : b.typeTag = 2) : ∃ s, b = .atom s := by
  cases b <;> simp [Formula.typeTag] at h ⊢

theorem tag_alw (b : Formula) (h : b.typeTag = 5) : ∃ x, b = .always x := by
  cases b <;> simp [Formula.typeTag] at h ⊢

theorem tag_ev (b : Formula) (h : b.typeTag = 6) : ∃ x, b = .eventually x := by
  cases b <;> simp [Formula.typeTag] at h ⊢

theorem tag_conj (b : Formula) (h : b.typeTag = 7) : ∃ x y, b = .conjunction x y := by
  cases b <;> simp [Formula.typeTag] at h ⊢

theorem tag_disj (b : Formula) (h : b.typeTag = 8) : ∃ x y, b = .disjunction x y := by
  cases b <;> simp [Formula.typeTag] at h ⊢

theorem tag_untl (b : Formula) (h : b.typeTag = 9) : ∃ x y, b = .untl x y := by
  cases b <;> simp [Formula.typeTag] at h ⊢

set_option maxHeartbeats 1000000 in
theorem cmp_trans_aux : ∀ n : ℕ, ∀ a b c : Formula, a.size + b.size + c.size ≤ n →
    compareFunc a b = true → compareFunc b c = true → compareFunc a c = true := by
  intro n
  induction n with
  | zero => intro a b c hsz _ _; cases a <;> simp [Formula.size] at hsz <;> omega
  | succ n ih =>
    intro a b c hsz h1 h2
    rcases Formula.neg_shape a with ⟨a1, rfl⟩ | han
    · rcases Formula.neg_shape b with ⟨b1, rfl⟩ | hbn
      · rcases Formula.neg_shape c with ⟨c1, rfl⟩ | hcn
        · rw [cmp_neg_neg] at h1 h2 ⊢
          exact ih a1 b1 c1 (by simp [Formula.size] at hsz ⊢ <;> omega) h1 h2
        · rw [cmp_neg_neg] at h1
          rw [cmp_neg_left b1 c hcn] at h2
          split_ifs at h2 with hbc
          rw [cmp_neg_left a1 c hcn]
          by_cases hac : a1 = c
          · rw [← hac] at h2
            exact (cmp_asymm a1 b1 h1 h2).elim
          · rw [if_neg hac]
            exact ih a1 b1 c (by simp [Formula.size] at hsz ⊢ <;> omega) h1 h2
      · rcases Formula.neg_shape c with ⟨c1, rfl⟩ | hcn
        · rw [cmp_neg_left a1 b hbn] at h1
          split_ifs at h1 with hab
          rw [cmp_neg_right b c1 hbn] at h2
          rw [cmp_neg_neg]
          by_cases hcb : c1 = b
          · rw [hcb]
            exact h1
          · rw [if_neg hcb] at h2
            exact ih a1 b c1 (by simp [Formula.size] at hsz ⊢ <;> omega) h1 h2
        · rw [cmp_neg_left a1 b hbn] at h1
          split_ifs at h1 with hab
          rw [cmp_neg_left a1 c hcn]
          by_cases hac : a1 = c
          · rw [← hac] at h2
            exact (cmp_asymm a1 b h1 h2).elim
          · rw [if_neg hac]
            exact ih a1 b c (by simp [Formula.size] at hsz ⊢ <;> omega) h1 h2
    · rcases Formula.neg_shape b with ⟨b1, rfl⟩ | hbn
      · rcases Formula.neg_shape c with ⟨c1, rfl⟩ | hcn
        · rw [cmp_neg_right a b1 han] at h1
          rw [cmp_neg_neg] at h2
          rw [cmp_neg_right a c1 han]
          by_cases hca : c1 = a
          · rw [if_pos hca]
          · rw [if_neg hca]
            by_cases hba : b1 = a
            · rw [hba] at h2
              exact h2
            · rw [if_neg hba] at h1
              exact ih a b1 c1 (by simp [Formula.size] at hsz ⊢ <;> omega) h1 h2
        · rw [cmp_neg_right a b1 han] at h1
          rw [cmp_neg_left b1 c hcn] at h2
          split_ifs at h2 with hbc
          by_cases hba : b1 = a
          · rw [hba] at h2
            exact h2
          · rw [if_neg hba] at h1
            exact ih a b1 c (by simp [Formula.size] at hsz ⊢ <;> omega) h1 h2
      · rcases Formula.neg_shape c with ⟨c1, rfl⟩ | hcn
        · rw [cmp_neg_right b c1 hbn] at h2
          rw [cmp_neg_right a c1 han]
          by_cases hca : c1 = a
          · rw [if_pos hca]
          · rw [if_neg hca]
            by_cases hcb : c1 = b
            · rw [← hcb] at h1
              exact h1
            · rw [if_neg hcb] at h2
              exact ih a b c1 (by simp [Formula.size] at hsz ⊢ <;> omega) h1 h2
        · rcases Formula.tom_shape a with ⟨a1, rfl⟩ | hat
          · rcases Formula.tom_shape b with ⟨b1, rfl⟩ | hbt
            · rcases Formula.tom_shape c with ⟨c1, rfl⟩ | hct
              · rw [cmp_tom_tom] at h1 h2 ⊢
                exact ih a1 b1 c1 (by simp [Formula.size] at hsz ⊢ <;> omega) h1 h2
              · rw [cmp_tom_tom] at h1
                rw [cmp_tom_left b1 c hcn hct] at h2
                split_ifs at h2 with hbc
                rw [cmp_tom_left a1 c hcn hct]
                by_cases hac : a1 = c
                · rw [← hac] at h2
                  exact (cmp_asymm a1 b1 h1 h2).elim
                · rw [if_neg hac]
                  exact ih a1 b1 c (by simp [Formula.size] at hsz ⊢ <;> omega) h1 h2
            · rcases Formula.tom_shape c with ⟨c1, rfl⟩ | hct
              · rw [cmp_tom_left a1 b hbn hbt] at h1
                split_ifs at h1 with hab
                rw [cmp_tom_right b c1 hbn hbt] at h2
                rw [cmp_tom_tom]
                by_cases hcb : c1 = b
                · rw [hcb]
                  exact h1
                · rw [if_neg hcb] at h2
                  exact ih a1 b c1 (by simp [Formula.size] at hsz ⊢ <;> omega) h1 h2
              · rw [cmp_tom_left a1 b hbn hbt] at h1
                split_ifs at h1 with hab
                rw [cmp_tom_left a1 c hcn hct]
                by_cases hac : a1 = c
                · rw [← hac] at h2
                  exact (cmp_asymm a1 b h1 h2).elim
                · rw [if_neg hac]
                  exact ih a1 b c (by simp [Formula.size] at hsz ⊢ <;> omega) h1 h2
          · rcases Formula.tom_shape b with ⟨b1, rfl⟩ | hbt
            · rcases Formula.tom_shape c with ⟨c1, rfl⟩ | hct
              · rw [cmp_tom_right a b1 han hat] at h1
                rw [cmp_tom_tom] at h2
                rw [cmp_tom_right a c1 han hat]
                by_cases hca : c1 = a
                · rw [if_pos hca]
                · rw [if_neg hca]
                  by_cases hba : b1 = a
                  · rw [hba] at h2
                    exact h2
                  · rw [if_neg hba] at h1
                    exact ih a b1 c1 (by simp [Formula.size] at hsz ⊢ <;> omega) h1 h2
              · rw [cmp_tom_right a b1 han hat] at h1
                rw [cmp_tom_left b1 c hcn hct] at h2
                split_ifs at h2 with hbc
                by_cases hba : b1 = a
                · rw [hba] at h2
                  exact h2
                · rw [if_neg hba] at h1
                  exact ih a b1 c (by simp [Formula.size] at hsz ⊢ <;> omega) h1 h2
            · rcases Formula.tom_shape c with ⟨c1, rfl⟩ | hct
              · rw [cmp_tom_right b c1 hbn hbt] at h2
                rw [cmp_tom_right a c1 han hat]
                by_cases hca : c1 = a
                · rw [if_pos hca]
                · rw [if_neg hca]
                  by_cases hcb : c1 = b
                  · rw [← hcb] at h1
                    exact h1
                  · rw [if_neg hcb] at h2
                    exact ih a b c1 (by simp [Formula.size] at hsz ⊢ <;> omega) h1 h2
              · by_cases t12 : a.typeTag = b.typeTag
                · by_cases t23 : b.typeTag = c.typeTag
                  · cases a with
                    | tru =>
                        rw [tag_tru b (by simpa [Formula.typeTag] using t12.symm)] at h1
                        rw [cmp_irrefl] at h1
                        exact Bool.noConfusion h1
                    | fls =>
                        rw [tag_fls b (by simpa [Formula.typeTag] using t12.symm)] at h1
                        rw [cmp_irrefl] at h1
                        exact Bool.noConfusion h1
                    | atom s =>
                        obtain ⟨t, rfl⟩ := tag_atom b (by simpa [Formula.typeTag] using t12.symm)
                        obtain ⟨u, rfl⟩ := tag_atom c (by simpa [Formula.typeTag] using t23.symm)
                        rw [cmp_atom_atom] at h1 h2 ⊢
                        simp only [decide_eq_true_eq] at h1 h2 ⊢
                        exact lt_trans h1 h2
                    | negation f =>
                        simp only [Formula.isNeg] at han
                        exact Bool.noConfusion han
                    | tomorrow f =>
                        simp only [Formula.isTom] at hat
                        exact Bool.noConfusion hat
                    | always f =>
                        obtain ⟨g, rfl⟩ := tag_alw b (by simpa [Formula.typeTag] using t12.symm)
                        obtain ⟨k, rfl⟩ := tag_alw c (by simpa [Formula.typeTag] using t23.symm)
                        rw [cmp_alw_alw] at h1 h2 ⊢
                        exact ih f g k (by simp [Formula.size] at hsz ⊢ <;> omega) h1 h2
                    | eventually f =>
                        obtain ⟨g, rfl⟩ := tag_ev b (by simpa [Formula.typeTag] using t12.symm)
                        obtain ⟨k, rfl⟩ := tag_ev c (by simpa [Formula.typeTag] using t23.symm)
                        rw [cmp_ev_ev] at h1 h2 ⊢
                        exact ih f g k (by simp [Formula.size] at hsz ⊢ <;> omega) h1 h2
                    | conjunction l1 r1 =>
                        obtain ⟨l2, r2, rfl⟩ := tag_conj b (by simpa [Formula.typeTag] using t12.symm)
                        obtain ⟨l3, r3, rfl⟩ := tag_conj c (by simpa [Formula.typeTag] using t23.symm)
                        rw [cmp_conj_conj] at h1 h2 ⊢
                        by_cases h12 : l1 = l2
                        · subst h12
                          rw [if_neg (not_not_intro rfl)] at h1
                          by_cases h23 : l1 = l3
                          · subst h23
                            rw [if_neg (not_not_intro rfl)] at h2 ⊢
                            exact ih r1 r2 r3 (by simp [Formula.size] at hsz ⊢ <;> omega) h1 h2
                          · rw [if_pos h23] at h2 ⊢
                            exact h2
                        · rw [if_pos h12] at h1
                          by_cases h23 : l2 = l3
                          · subst h23
                            rw [if_pos h12]
                            exact h1
                          · rw [if_pos h23] at h2
                            by_cases h13 : l1 = l3
                            · rw [← h13] at h2
                              exact (cmp_asymm l1 l2 h1 h2).elim
                            · rw [if_pos h13]
                              exact ih l1 l2 l3 (by simp [Formula.size] at hsz ⊢ <;> omega) h1 h2
                    | disjunction l1 r1 =>
                        obtain ⟨l2, r2, rfl⟩ := tag_disj b (by simpa [Formula.typeTag] using t12.symm)
                        obtain ⟨l3, r3, rfl⟩ := tag_disj c (by simpa [Formula.typeTag] using t23.symm)
                        rw [cmp_disj_disj] at h1 h2 ⊢
                        by_cases h12 : l1 = l2
                        · subst h12
                          rw [if_neg (not_not_intro rfl)] at h1
                          by_cases h23 : l1 = l3
                          · subst h23
                            rw [if_neg (not_not_intro rfl)] at h2 ⊢
                            exact ih r1 r2 r3 (by simp [Formula.size] at hsz ⊢ <;> omega) h1 h2
                          · rw [if_pos h23] at h2 ⊢
                            exact h2
                        · rw [if_pos h12] at h1
                          by_cases h23 : l2 = l3
                          · subst h23
                            rw [if_pos h12]
                            exact h1
                          · rw [if_pos h23] at h2
                            by_cases h13 : l1 = l3
                            · rw [← h13] at h2
                              exact (cmp_asymm l1 l2 h1 h2).elim
                            · rw [if_pos h13]
                              exact ih l1 l2 l3 (by simp [Formula.size] at hsz ⊢ <;> omega) h1 h2
                    | untl l1 r1 =>
                        obtain ⟨l2, r2, rfl⟩ := tag_untl b (by simpa [Formula.typeTag] using t12.symm)
                        obtain ⟨l3, r3, rfl⟩ := tag_untl c (by simpa [Formula.typeTag] using t23.symm)
                        rw [cmp_untl_untl] at h1 h2 ⊢
                        by_cases h12 : l1 = l2
                        · subst h12
                          rw [if_neg (not_not_intro rfl)] at h1
                          by_cases h23 : l1 = l3
                          · subst h23
                            rw [if_neg (not_not_intro rfl)] at h2 ⊢
                            exact ih r1 r2 r3 (by simp [Formula.size] at hsz ⊢ <;> omega) h1 h2
                          · rw [if_pos h23] at h2 ⊢
                            exact h2
                        · rw [if_pos h12] at h1
                          by_cases h23 : l2 = l3
                          · subst h23
                            rw [if_pos h12]
                            exact h1
                          · rw [if_pos h23] at h2
                            by_cases h13 : l1 = l3
                            · rw [← h13] at h2
                              exact (cmp_asymm l1 l2 h1 h2).elim
                            · rw [if_pos h13]
                              exact ih l1 l2 l3 (by simp [Formula.size] at hsz ⊢ <;> omega) h1 h2
                  · rw [cmp_cross b c hbn hcn hbt hct t23] at h2
                    rw [cmp_cross a c han hcn hat hct (by rw [t12]; exact t23)]
                    simp only [decide_eq_true_eq] at h2 ⊢
                    rw [t12]
                    exact h2
                · by_cases t23 : b.typeTag = c.typeTag
                  · rw [cmp_cross a b han hbn hat hbt t12] at h1
                    rw [cmp_cross a c han hcn hat hct (by rw [← t23]; exact t12)]
                    simp only [decide_eq_true_eq] at h1 ⊢
                    rw [← t23]
                    exact h1
                  · rw [cmp_cross a b han hbn hat hbt t12] at h1
                    rw [cmp_cross b c hbn hcn hbt hct t23] at h2
                    simp only [decide_eq_true_eq] at h1 h2
                    rw [cmp_cross a c han hcn hat hct (by omega)]
                    simp only [decide_eq_true_eq]
                    omega

theorem cmp_trans (a b c : Formula) (h1 : compareFunc a b = true)
    (h2 : compareFunc b c = true) : compareFunc a c = true :=
  cmp_trans_aux (a.size + b.size + c.size) a b c le_rfl h1 h2

theorem cmp_neg_self (a : Formula) : compareFunc (.negation a) a = false := by
  induction a with
  | negation f ih => rw [cmp_neg_neg]; exact ih
  | tru => simp [compareFunc]
  | fls => simp [compareFunc]
  | atom s => simp [compareFunc]
  | tomorrow f ih => simp [compareFunc]
  | always f ih => simp [compareFunc]
  | eventually f ih => simp [compareFunc]
  | conjunction l r ihl ihr => simp [compareFunc]
  | disjunction l r ihl ihr => simp [compareFunc]
  | untl l r ihl ihr => simp [compareFunc]

theorem cmp_self_neg (a : Formula) : compareFunc a (.negation a) = true := by
  induction a with
  | negation f ih => rw [cmp_neg_neg]; exact ih
  | tru => simp [compareFunc]
  | fls => simp [compareFunc]
  | atom s => simp [compareFunc]
  | tomorrow f ih => simp [compareFunc]
  | always f ih => simp [compareFunc]
  | eventually f ih => simp [compareFunc]
  | conjunction l r ihl ihr => simp [compareFunc]
  | disjunction l r ihl ihr => simp [compareFunc]
  | untl l r ihl ihr => simp [compareFunc]

theorem neg_ne_self (a : Formula) : Formula.negation a ≠ a := by
  intro h
  have := congrArg Formula.size h
  simp [Formula.size] at this

set_option maxHeartbeats 400000 in
theorem cmp_adjacent_aux : ∀ n : ℕ, ∀ a b : Formula, a.size + b.size ≤ n →
    compareFunc a b = true → compareFunc b (.negation a) = true → False := by
  intro n
  induction n with
  | zero => intro a b hsz _ _; cases a <;> simp [Formula.size] at hsz <;> omega
  | succ n ih =>
    intro a b hsz h1 h2
    rcases Formula.neg_shape b with ⟨b1, rfl⟩ | hbn
    · rw [cmp_neg_neg] at h2
      rcases Formula.neg_shape a with ⟨a1, rfl⟩ | han
      · rw [cmp_neg_neg] at h1
        exact ih a1 b1 (by simp [Formula.size] at hsz ⊢ <;> omega) h1 h2
      · rw [cmp_neg_right a b1 han] at h1
        by_cases hc : b1 = a
        · rw [hc, cmp_irrefl] at h2
          exact Bool.noConfusion h2
        · rw [if_neg hc] at h1
          exact cmp_asymm a b1 h1 h2
    · rw [cmp_neg_right b a hbn] at h2
      by_cases hc : a = b
      · rw [← hc, cmp_irrefl] at h1
        exact Bool.noConfusion h1
      · rw [if_neg hc] at h2
        exact cmp_asymm a b h1 h2

theorem cmp_adjacent (a b : Formula) (h1 : compareFunc a b = true)
    (h2 : compareFunc b (.negation a) = true) : False :=
  cmp_adjacent_aux (a.size + b.size) a b le_rfl h1 h2

theorem chainWalk_inl_of_mem (evs : List Eventuality) (fs : Finset ℕ) :
    ∀ (chain : List ChainEntry) (A : ChainEntry), A ∈ chain → fs ⊆ A.formulas →
      allSatisfied evs A.id = true →
      ∃ B ∈ chain, fs ⊆ B.formulas ∧ allSatisfied evs B.id = true ∧
        chainWalk evs fs chain = Sum.inl B.id := by
  intro chain
  induction chain with
  | nil => intro A hA _ _; simp at hA
  | cons C rest ih =>
    intro A hA hsub hsat
    by_cases hC : fs ⊆ C.formulas
    · by_cases hCs : allSatisfied evs C.id = true
      · exact ⟨C, by simp, hC, hCs, by simp [chainWalk, hC, hCs]⟩
      · have hAr : A ∈ rest := by
          rcases List.mem_cons.mp hA with rfl | h
          · exact absurd hsat hCs
          · exact h
        obtain ⟨B, hB, h1, h2, h3⟩ := ih A hAr hsub hsat
        refine ⟨B, List.mem_cons_of_mem _ hB, h1, h2, ?_⟩
        simp [chainWalk, hC, hCs, h3]
    · have hAr : A ∈ rest := by
        rcases List.mem_cons.mp hA with rfl | h
        · exact absurd hsub hC
        · exact h
      obtain ⟨B, hB, h1, h2, h3⟩ := ih A hAr hsub hsat
      exact ⟨B, List.mem_cons_of_mem _ hB, h1, h2, by simp [chainWalk, hC, h3]⟩

theorem chainWalk_inr_count (evs : List Eventuality) (fs : Finset ℕ) :
    ∀ (chain : List ChainEntry) (r : ℕ), chainWalk evs fs chain = Sum.inr r →
      r = chain.countP (fun A => decide (fs = A.formulas)) := by
  intro chain
  induction chain with
  | nil =>
      intro r h
      simp [chainWalk] at h
      simp [h.symm]
  | cons C rest ih =>
    intro r h
    by_cases hC : fs ⊆ C.formulas
    · by_cases hCs : allSatisfied evs C.id = true
      · simp [chainWalk, hC, hCs] at h
      · cases hrec : chainWalk evs fs rest with
        | inl a => simp [chainWalk, hC, hCs, hrec] at h
        | inr r0 =>
          simp only [chainWalk, if_pos hC, if_neg hCs, hrec] at h
          have hr0 := ih r0 hrec
          by_cases he : fs = C.formulas
          · simp only [if_pos he, Sum.inr.injEq] at h
            simp [List.countP_cons, he, ← h, hr0]
          · simp only [if_neg he, Sum.inr.injEq] at h
            simp [List.countP_cons, he, ← h, hr0]
    · have he : fs ≠ C.formulas := by
        intro hh
        exact hC (by rw [hh])
      have := ih r (by simpa [chainWalk, hC] using h)
      simp [List.countP_cons, he, this]

theorem takeWhile_length_eq {α : Type} (pred : α → Bool) :
    ∀ (L : List α) (j : ℕ) (hj : j < L.length),
      (∀ k (hk : k < L.length), k < j → pred (L.get ⟨k, hk⟩) = true) →
      pred (L.get ⟨j, hj⟩) = false → (L.takeWhile pred).length = j := by
  intro L
  induction L with
  | nil => intro j hj; simp at hj
  | cons a t ih =>
    intro j hj hall hstop
    cases j with
    | zero =>
        have ha : pred a = false := hstop
        simp [List.takeWhile, ha]
    | succ j0 =>
        have ha : pred a = true := hall 0 (by simp) (by omega)
        simp only [List.takeWhile, ha, List.length_cons]
        have := ih j0 (by simpa using hj)
          (fun k hk hkj => hall (k + 1) (by simpa using hk) (by omega)) hstop
        omega

theorem sorted_neg_follows (L : List Formula) (hs : List.Sorted cmpLT L) (φ : Formula)
    (i : ℕ) (hget : L.get? i = some (Formula.negation φ)) (hmem : φ ∈ L) :
    1 ≤ i ∧ L.get? (i - 1) = some φ := by
  obtain ⟨j, hj⟩ := List.mem_iff_get.mp hmem
  obtain ⟨hi, hgi⟩ := List.get?_eq_some.mp hget
  have hne : (j : ℕ) ≠ i := by
    intro h
    have heq : L.get j = L.get ⟨i, hi⟩ := by
      congr 1
      exact Fin.ext h
    rw [hj, hgi] at heq
    exact neg_ne_self φ heq.symm
  have hji : (j : ℕ) < i := by
    rcases lt_or_gt_of_ne hne with h | h
    · exact h
    · exfalso
      have hrel := List.Sorted.rel_get_of_lt hs
        (show (⟨i, hi⟩ : Fin L.length) < j from by simpa [Fin.lt_def] using h)
      rw [hgi, hj] at hrel
      unfold cmpLT at hrel
      rw [cmp_neg_self] at hrel
      exact Bool.noConfusion hrel
  have hle : i ≤ (j : ℕ) + 1 := by
    by_contra hcon
    push_neg at hcon
    have hjj : (j : ℕ) + 1 < L.length := by omega
    have hrel1 := List.Sorted.rel_get_of_lt hs
      (show j < (⟨(j : ℕ) + 1, hjj⟩ : Fin L.length) from by simp [Fin.lt_def])
    have hrel2 := List.Sorted.rel_get_of_lt hs
      (show (⟨(j : ℕ) + 1, hjj⟩ : Fin L.length) < ⟨i, hi⟩ from by simp [Fin.lt_def]; omega)
    rw [hj] at hrel1
    rw [hgi] at hrel2
    exact cmp_adjacent φ _ hrel1 hrel2
  have hij : i = (j : ℕ) + 1 := by omega
  subst hij
  refine ⟨by omega, ?_⟩
  simp only [Nat.add_sub_cancel]
  rw [List.get?_eq_get j.isLt]
  rw [← hj]


/- ------------------------------------------------------------------ -/
/- Claim theorems                                                      -/
/- ------------------------------------------------------------------ -/

/-- C1 (LOOP rule): whenever the loop/REP detector runs on the current
frame F (afterRules with the lookback coin true), if some STEP ancestor A on
F's chain satisfies F.formulas ⊆ A.formulas and every eventuality of F that
is not UNREQUESTED is SATISFIED with satisfaction frame id ≥ A.id, then
solution() returns SATISFIABLE, sets the solver state to PAUSED, and sets
loop_state to the id of such an ancestor (the first qualifying one on the
chain, which itself meets both conditions). -/
theorem loop_rule_sound (ctx : Ctx) (maxd : ℕ) (F : Frame) (chain : List ChainEntry)
    (A : ChainEntry) (hA : A ∈ chain) (hsub : F.formulas ⊆ A.formulas)
    (hev : allSatisfied F.eventualities A.id = true) :
    ∃ B ∈ chain, F.formulas ⊆ B.formulas ∧ allSatisfied F.eventualities B.id = true ∧
      afterRules ctx maxd true F chain =
        Outcome.conclude Result.SATISFIABLE SolverState.PAUSED B.id := by
  obtain ⟨B, hB, h1, h2, h3⟩ :=
    chainWalk_inl_of_mem F.eventualities F.formulas chain A hA hsub hev
  exact ⟨B, hB, h1, h2, by simp [afterRules, h3]⟩

/-- Witness for C1 at the G p context: the detector at time 1 concludes
SATISFIABLE with loop_state 0. -/
theorem loop_rule_sound_witness :
    ∃ B ∈ chG, FG.formulas ⊆ B.formulas ∧ allSatisfied FG.eventualities B.id = true ∧
      afterRules ctxG 2 true FG chG =
        Outcome.conclude Result.SATISFIABLE SolverState.PAUSED B.id :=
  loop_rule_sound ctxG 2 FG chG { id := 0, formulas := {0, 1, 2} }
    (by decide) (by decide) (by decide)

/-- C2 (code bug): evaluation of the not-until β-rule at a frame whose two
eventuality slots are both UNREQUESTED.  The claim says both slots
transition to NOT_SATISFIED; in the source the second lookup
(ev = frame.eventualities[...] at solver.cpp:577, where ev is a C++
reference bound to the first slot) copy-assigns the rhs slot's record into
the lhs slot instead of rebinding the reference, so the rhs slot
fw_ev[rhs[i]] remains UNREQUESTED on both the parent and the pushed child,
and the lhs slot is overwritten by the rhs slot's state. -/
theorem not_until_rhs_slot_unchanged :
    notUntilEvUpdate [Eventuality.unrequested, Eventuality.unrequested] 0 1 =
      [Eventuality.notSatisfied, Eventuality.unrequested] ∧
    (pushNotUntil ctxN FN).map (fun pr => pr.1.eventualities) =
      some [Eventuality.notSatisfied, Eventuality.unrequested] ∧
    (pushNotUntil ctxN FN).map (fun pr => pr.2.eventualities) =
      some [Eventuality.notSatisfied, Eventuality.unrequested] := by
  refine ⟨by decide, by decide, by decide⟩

/-- C3: every β-rule push commits the first alternative (disjunction:
lhs[i]; eventually: lhs[i]; until: rhs[i]; not-until: lhs[i] and rhs[i]) on
a child of a parent marked CHOICE with chosen = i and i cleared from
to_process; when rollback later resumes that CHOICE frame, the new child
commits the second alternative (disjunction: rhs[i]; eventually: i+1, the X
skin; until: lhs[i] plus the X-skin at i+1 or i+2; not-until: rhs[i] plus
that X-skin), the resumed frame re-enters the stack with its chosen formula
cleared, and a frame with cleared chosen is never resumed again (rollback
passes over it). -/
theorem beta_alternatives (ctx : Ctx) :
    (∀ f par child, pushDisjunction ctx f = some (par, child) →
      ∃ i, par.chosen = some i ∧ par.type = FrameType.CHOICE ∧
        par.to_process = f.to_process.erase i ∧
        child.formulas = insert (ctx.lhs i) f.formulas) ∧
    (∀ f par child, pushEventually ctx f = some (par, child) →
      ∃ i, par.chosen = some i ∧ par.type = FrameType.CHOICE ∧
        child.formulas = insert (ctx.lhs i) f.formulas) ∧
    (∀ f par child, pushUntl ctx f = some (par, child) →
      ∃ i, par.chosen = some i ∧ par.type = FrameType.CHOICE ∧
        child.formulas = insert (ctx.rhs i) f.formulas) ∧
    (∀ f par child, pushNotUntil ctx f = some (par, child) →
      ∃ i, par.chosen = some i ∧ par.type = FrameType.CHOICE ∧
        child.formulas = insert (ctx.rhs i) (insert (ctx.lhs i) f.formulas)) ∧
    (∀ (top : Frame) (i : ℕ) (rest : List Frame), top.type = FrameType.CHOICE →
      top.chosen = some i →
      (rollback_to_latest_choice ctx (top :: rest) =
        rollbackChild ctx top i :: { top with chosen := none } :: rest ∧
      (rollbackChild ctx top i).chosen = none ∧
      (i ∈ ctx.disjunction →
        (rollbackChild ctx top i).formulas = insert (ctx.rhs i) top.formulas) ∧
      (i ∉ ctx.disjunction → i ∈ ctx.eventually →
        (rollbackChild ctx top i).formulas = insert (i + 1) top.formulas) ∧
      (i ∉ ctx.disjunction → i ∉ ctx.eventually → i ∈ ctx.untl →
        (rollbackChild ctx top i).formulas =
          insert (if i + 1 ∈ ctx.tomorrow then i + 1 else i + 2)
            (insert (ctx.lhs i) top.formulas)) ∧
      (i ∉ ctx.disjunction → i ∉ ctx.eventually → i ∉ ctx.untl → i ∈ ctx.not_until →
        (rollbackChild ctx top i).formulas =
          insert (if i + 1 ∈ ctx.tomorrow then i + 1 else i + 2)
            (insert (ctx.rhs i) top.formulas)))) ∧
    (∀ (top : Frame) (rest : List Frame), top.chosen = none →
      rollback_to_latest_choice ctx (top :: rest) = rollback_to_latest_choice ctx rest) := by
  refine ⟨?_, ?_, ?_, ?_, ?_, ?_⟩
  · intro f par child h
    unfold pushDisjunction at h
    cases hff : applyBetaRule ctx.n ctx.disjunction f with
    | none => rw [hff] at h; exact Option.noConfusion h
    | some pr =>
        rw [hff] at h
        obtain ⟨i, hi⟩ : ∃ i, pr = (i, { f with to_process := f.to_process.erase i, chosen := some i, type := FrameType.CHOICE }) := by
          unfold applyBetaRule at hff
          cases hf2 : findFirst ctx.n (f.formulas ∩ ctx.disjunction ∩ f.to_process) with
          | none => rw [hf2] at hff; exact Option.noConfusion hff
          | some j =>
              rw [hf2] at hff
              exact ⟨j, (Option.some.injEq _ _ ▸ hff).symm⟩
        subst hi
        simp only [Option.some.injEq, Prod.mk.injEq] at h
        obtain ⟨hpar, hchild⟩ := h
        exact ⟨i, by rw [← hpar], by rw [← hpar], by rw [← hpar], by rw [← hchild]⟩
  · intro f par child h
    unfold pushEventually at h
    cases hff : applyBetaRule ctx.n ctx.eventually f with
    | none => rw [hff] at h; exact Option.noConfusion h
    | some pr =>
        rw [hff] at h
        obtain ⟨i, hi⟩ : ∃ i, pr = (i, { f with to_process := f.to_process.erase i, chosen := some i, type := FrameType.CHOICE }) := by
          unfold applyBetaRule at hff
          cases hf2 : findFirst ctx.n (f.formulas ∩ ctx.eventually ∩ f.to_process) with
          | none => rw [hf2] at hff; exact Option.noConfusion hff
          | some j =>
              rw [hf2] at hff
              exact ⟨j, (Option.some.injEq _ _ ▸ hff).symm⟩
        subst hi
        simp only [Option.some.injEq, Prod.mk.injEq] at h
        obtain ⟨hpar, hchild⟩ := h
        exact ⟨i, by rw [← hpar], by rw [← hpar], by rw [← hchild]⟩
  · intro f par child h
    unfold pushUntl at h
    cases hff : applyBetaRule ctx.n ctx.untl f with
    | none => rw [hff] at h; exact Option.noConfusion h
    | some pr =>
        rw [hff] at h
        obtain ⟨i, hi⟩ : ∃ i, pr = (i, { f with to_process := f.to_process.erase i, chosen := some i, type := FrameType.CHOICE }) := by
          unfold applyBetaRule at hff
          cases hf2 : findFirst ctx.n (f.formulas ∩ ctx.untl ∩ f.to_process) with
          | none => rw [hf2] at hff; exact Option.noConfusion hff
          | some j =>
              rw [hf2] at hff
              exact ⟨j, (Option.some.injEq _ _ ▸ hff).symm⟩
        subst hi
        simp only [Option.some.injEq, Prod.mk.injEq] at h
        obtain ⟨hpar, hchild⟩ := h
        exact ⟨i, by rw [← hpar], by rw [← hpar], by rw [← hchild]⟩
  · intro f par child h
    unfold pushNotUntil at h
    cases hff : applyBetaRule ctx.n ctx.not_until f with
    | none => rw [hff] at h; exact Option.noConfusion h
    | some pr =>
        rw [hff] at h
        obtain ⟨i, hi⟩ : ∃ i, pr = (i, { f with to_process := f.to_process.erase i, chosen := some i, type := FrameType.CHOICE }) := by
          unfold applyBetaRule at hff
          cases hf2 : findFirst ctx.n (f.formulas ∩ ctx.not_until ∩ f.to_process) with
          | none => rw [hf2] at hff; exact Option.noConfusion hff
          | some j =>
              rw [hf2] at hff
              exact ⟨j, (Option.some.injEq _ _ ▸ hff).symm⟩
        subst hi
        simp only [Option.some.injEq, Prod.mk.injEq] at h
        obtain ⟨hpar, hchild⟩ := h
        exact ⟨i, by rw [← hpar], by rw [← hpar], by rw [← hchild]⟩
  · intro top i rest htype hchosen
    refine ⟨?_, rfl, fun hd => ?_, fun hd he => ?_, fun hd he hu => ?_, fun hd he hu hn => ?_⟩
    · unfold rollback_to_latest_choice
      rw [if_pos ⟨htype, by rw [hchosen]; exact fun hh => Option.noConfusion hh⟩]
      rw [hchosen]
    · simp [rollbackChild, hd]
    · simp [rollbackChild, hd, he]
    · simp [rollbackChild, hd, he, hu]
    · simp [rollbackChild, hd, he, hu, hn]
  · intro top rest hchosen
    simp only [rollback_to_latest_choice]
    rw [if_neg (fun hc => hc.2 hchosen)]

/-- Witness for C3: the disjunction conjunct at the concrete context ctxD. -/
theorem beta_alternatives_witness :
    ∃ i, parD.chosen = some i ∧ parD.type = FrameType.CHOICE ∧
      parD.to_process = FD.to_process.erase i ∧
      childD.formulas = insert (ctxD.lhs i) FD.formulas :=
  (beta_alternatives ctxD).1 FD parD childD (by rfl)

/-- C4 (REP rule): when the loop/REP detector runs (lookback coin true), at
least two ancestors on the chain have formulas exactly equal to F.formulas,
and the LOOP rule does not conclude SATISFIABLE (the chain walk does not
return an ancestor id), the engine rolls back to the latest choice instead
of taking a STEP. -/
theorem rep_rule_prunes (ctx : Ctx) (maxd : ℕ) (F : Frame) (chain : List ChainEntry)
    (hno : (chainWalk F.eventualities F.formulas chain).isLeft = false)
    (hrep : 2 ≤ chain.countP (fun A => decide (F.formulas = A.formulas))) :
    afterRules ctx maxd true F chain = Outcome.rollback := by
  cases hwalk : chainWalk F.eventualities F.formulas chain with
  | inl a => rw [hwalk] at hno; simp at hno
  | inr r =>
      have hr := chainWalk_inr_count F.eventualities F.formulas chain r hwalk
      have h2r : 2 ≤ r := by omega
      simp [afterRules, hwalk, h2r]

/-- Witness for C4: two equal ancestors and a pending eventuality force a
rollback. -/
theorem rep_rule_prunes_witness : afterRules ctxG 5 true FRep chRep = Outcome.rollback :=
  rep_rule_prunes ctxG 5 FRep chRep (by decide) (by decide)

/-- C5 counterexample: a concrete frame with id ≥ maximum_depth on which
the engine does not roll back: the lookback runs before the depth check in
Solver::solution, so the LOOP rule fires first and concludes SATISFIABLE
(this is reachable, e.g. G p with maximum_depth 1). -/
theorem depth_bound_counterexample :
    1 ≤ FG.id ∧
    afterRules ctxG 1 true FG chG =
      Outcome.conclude Result.SATISFIABLE SolverState.PAUSED 0 ∧
    afterRules ctxG 1 true FG chG ≠ Outcome.rollback := by
  refine ⟨by decide, by decide, by decide⟩

/-- C5 (amended): for every frame with id ≥ maximum_depth the STEP rule is
never taken; the engine rolls back instead unless the LOOP rule concludes
SATISFIABLE during the same lookback; and whenever the search stack empties
without a model having been found (result still UNDEFINED), solution()
reports UNSATISFIABLE — depth exhaustion is never a distinct error. -/
theorem depth_bound_amended (ctx : Ctx) (maxd : ℕ) (coin : Bool) (F : Frame)
    (chain : List ChainEntry) (h : maxd ≤ F.id) :
    ((∀ c, afterRules ctx maxd coin F chain ≠ Outcome.step c) ∧
     (afterRules ctx maxd coin F chain = Outcome.rollback ∨
      ∃ a, afterRules ctx maxd coin F chain =
        Outcome.conclude Result.SATISFIABLE SolverState.PAUSED a)) ∧
    finishResult Result.UNDEFINED = Result.UNSATISFIABLE := by
  refine ⟨?_, rfl⟩
  unfold afterRules
  cases hwalk : (if coin then chainWalk F.eventualities F.formulas chain else Sum.inr 0) with
  | inl a =>
      refine ⟨fun c => by simp, Or.inr ⟨a, by simp⟩⟩
  | inr r =>
      by_cases h2r : 2 ≤ r
      · exact ⟨fun c => by simp [h2r], Or.inl (by simp [h2r])⟩
      · exact ⟨fun c => by simp [h2r, h], Or.inl (by simp [h2r, h])⟩

/-- Witness for C5 at the G p context with maximum_depth 1. -/
theorem depth_bound_amended_witness :
    ((∀ c, afterRules ctxG 1 true FG chG ≠ Outcome.step c) ∧
     (afterRules ctxG 1 true FG chG = Outcome.rollback ∨
      ∃ a, afterRules ctxG 1 true FG chG =
        Outcome.conclude Result.SATISFIABLE SolverState.PAUSED a)) ∧
    finishResult Result.UNDEFINED = Result.UNSATISFIABLE :=
  depth_bound_amended ctxG 1 true FG chG (by decide)

/-- C8 (code bug): when the closure is the single formula True,
_initialize returns early with result SATISFIABLE and state DONE, solution()
reports SATISFIABLE immediately — but model() returns none for every stack
and every result because the solver is never PAUSED, so the single-state ⊤
special case inside Solver::model is unreachable; the claim instead promises
a one-state ⊤ model with loop_state 0. -/
theorem model_true_closure_none :
    initShortCircuit [Formula.tru] = some (Result.SATISFIABLE, SolverState.DONE) ∧
    solutionEntry SolverState.DONE Result.SATISFIABLE = some Result.SATISFIABLE ∧
    (∀ (ctx : Ctx) (stack : List Frame) (ls : ℕ) (res : Result),
      modelFn ctx SolverState.DONE res [Formula.tru] stack ls = none) := by
  refine ⟨rfl, rfl, fun ctx stack ls res => by simp [modelFn]⟩

/-- C9 (code bug): with backtrack_probability = 0 the OCCASIONAL LOOKBACK
gate (skip iff draw > p over a uniform {0..100} draw) still performs the
lookback when the draw is exactly 0, and whether it fires changes the
outcome: on the G p context the detector concludes SATISFIABLE with
loop_state 0 when the coin fires and takes a STEP otherwise, so two runs on
the same input can produce different verdicts, models and loop states,
contradicting the claimed determinism. -/
theorem lookback_zero_probability_affects_outcome :
    occasional_lookback 0 0 = true ∧ occasional_lookback 1 0 = false ∧
    afterRules ctxG 2 (occasional_lookback 0 0) FG chG =
      Outcome.conclude Result.SATISFIABLE SolverState.PAUSED 0 ∧
    afterRules ctxG 2 (occasional_lookback 1 0) FG chG = Outcome.step (stepChild ctxG FG) ∧
    (stepChild ctxG FG).formulas = {1} := by
  refine ⟨rfl, rfl, by decide, rfl, by decide⟩

/-- C10: if the closure is the single formula False, the solver is
initialized directly in the DONE state with result UNSATISFIABLE, solution()
returns UNSATISFIABLE with no tableau search (the entry check returns the
stored result) and model() returns none; symmetrically for True solution()
returns SATISFIABLE without search and the solver is DONE, not PAUSED. -/
theorem constant_closure_short_circuit :
    initShortCircuit [Formula.fls] = some (Result.UNSATISFIABLE, SolverState.DONE) ∧
    solutionEntry SolverState.DONE Result.UNSATISFIABLE = some Result.UNSATISFIABLE ∧
    (∀ (ctx : Ctx) (stack : List Frame) (ls : ℕ),
      modelFn ctx SolverState.DONE Result.UNSATISFIABLE [Formula.fls] stack ls = none) ∧
    initShortCircuit [Formula.tru] = some (Result.SATISFIABLE, SolverState.DONE) ∧
    solutionEntry SolverState.DONE Result.SATISFIABLE = some Result.SATISFIABLE ∧
    SolverState.DONE ≠ SolverState.PAUSED := by
  refine ⟨rfl, rfl, fun ctx stack ls => by simp [modelFn], rfl, rfl, by decide⟩

/-- C6 (closure pairing): after initialization, for every closure index i
whose entry carries the negation flag (a Negation whose child φ is not an
Until), the lhs table entry — computed by lower_bound of the negand in the
sorted closure (solver.cpp:213) — equals i - 1, the entry at i - 1 is φ
itself, and that entry is not flagged as negation.  The hypotheses
(sortedness of the closure, membership of the negand, no double negation)
are the closure well-formedness facts supplied by the generator and the
simplifier, which are not under src/ and are modelled from spec §4.A. -/
theorem closure_pairing (L : List Formula) (φ : Formula) (i : ℕ)
    (hs : List.Sorted cmpLT L)
    (hget : L.get? i = some (Formula.negation φ))
    (hmem : φ ∈ L)
    (hnn : φ.isNeg = false) (hnu : φ.isUntl = false) :
    1 ≤ i ∧ lowerBound L φ = i - 1 ∧ L.get? (i - 1) = some φ ∧
      negationFlag ((L.get? (i - 1)).getD Formula.tru) = false := by
  obtain ⟨h1, h2⟩ := sorted_neg_follows L hs φ i hget hmem
  obtain ⟨hi1, hgi1⟩ := List.get?_eq_some.mp h2
  refine ⟨h1, ?_, h2, ?_⟩
  · unfold lowerBound
    refine takeWhile_length_eq _ L (i - 1) hi1 ?_ ?_
    · intro k hk hki
      have hrel := List.Sorted.rel_get_of_lt hs
        (show (⟨k, hk⟩ : Fin L.length) < ⟨i - 1, hi1⟩ from by simp [Fin.lt_def]; omega)
      rw [hgi1] at hrel
      exact hrel
    · rw [hgi1]
      exact cmp_irrefl φ
  · rw [h2]
    simp only [Option.getD_some]
    cases φ <;> simp_all [negationFlag, Formula.isNeg, Formula.isUntl]

/-- Witness for C6 on the two-element closure [p, ¬p]. -/
theorem closure_pairing_witness :
    1 ≤ 1 ∧ lowerBound [pAtom, Formula.negation pAtom] pAtom = 1 - 1 ∧
      [pAtom, Formula.negation pAtom].get? (1 - 1) = some pAtom ∧
      negationFlag (([pAtom, Formula.negation pAtom].get? (1 - 1)).getD Formula.tru) = false :=
  closure_pairing [pAtom, Formula.negation pAtom] pAtom 1
    (by simp [List.sorted_cons, cmpLT, cmp_self_neg]) rfl (by simp) rfl rfl

/-- C7 counterexample: in the sorted closure [p, ¬p] the negation sits at
index 1, immediately AFTER p, not immediately before it; the comparator
orders p strictly before ¬p (compareFunc p ¬p = true, compareFunc ¬p p =
false), so an occurrence of ¬φ never immediately precedes φ. -/
theorem comparator_order_counterexample :
    List.Sorted cmpLT [pAtom, Formula.negation pAtom] ∧
    [pAtom, Formula.negation pAtom].get? 0 = some pAtom ∧
    [pAtom, Formula.negation pAtom].get? 1 = some (Formula.negation pAtom) ∧
    compareFunc (Formula.negation pAtom) pAtom = false ∧
    compareFunc pAtom (Formula.negation pAtom) = true := by
  exact ⟨by simp [List.sorted_cons, cmpLT, cmp_self_neg], rfl, rfl,
    cmp_neg_self pAtom, cmp_self_neg pAtom⟩

/-- C7 (amended): the structural comparator used to sort the closure is a
strict total order — irreflexive, transitive, and total on distinct
formulas — under which, for every formula φ whose negation is in the
closure, the occurrence of the negation of φ immediately FOLLOWS φ in the
sorted, deduplicated closure (negand-first on ties between a negation and
its own negand). -/
theorem comparator_order_amended :
    (∀ a : Formula, ¬ cmpLT a a) ∧
    (∀ a b c : Formula, cmpLT a b → cmpLT b c → cmpLT a c) ∧
    (∀ a b : Formula, a ≠ b → cmpLT a b ∨ cmpLT b a) ∧
    (∀ (L : List Formula) (φ : Formula) (i : ℕ), List.Sorted cmpLT L →
      L.get? i = some (Formula.negation φ) → φ ∈ L →
      1 ≤ i ∧ L.get? (i - 1) = some φ) := by
  refine ⟨?_, ?_, ?_, ?_⟩
  · intro a h
    unfold cmpLT at h
    rw [cmp_irrefl] at h
    exact Bool.noConfusion h
  · exact fun a b c => cmp_trans a b c
  · exact fun a b => cmp_total a b
  · exact fun L φ i hs hget hmem => sorted_neg_follows L hs φ i hget hmem

/-- Witness for C7 on the closure [p, ¬p]. -/
theorem comparator_order_amended_witness :
    1 ≤ 1 ∧ [pAtom, Formula.negation pAtom].get? (1 - 1) = some pAtom :=
  comparator_order_amended.2.2.2 [pAtom, Formula.negation pAtom] pAtom 1
    (by simp [List.sorted_cons, cmpLT, cmp_self_neg]) rfl (by simp)


end Leviathan
